import Mathlib

/-!
Shallow embedding of `histogram.py` (audio amplitude-histogram aggregator).

The numeric model is exact arithmetic: decoded samples, lengths and running
sums are rationals (`ℚ`); the final decibel-scale quantities live in
`WithBot ℝ`, whose bottom element models the float `-inf` returned by `db`
on non-positive input.  Machine floats are modelled by exact reals, which is
the intended semantics the spec describes.

`sf.read` returns a 2-D array for multi-channel files (rows = frames,
columns = channels) and a 1-D array for mono files; both are modelled as a
list of frames, a mono frame being a one-element list.  `len(samples)` before
`ravel()` is the number of frames; `samples.ravel()` is the row-major
flattening, i.e. `List.flatten`.
-/

/-- Result of `sf.read`: the decoded sample array (list of frames, each frame
one rational per channel) together with the sample rate. -/
structure DecodedAudio where
  frames : List (List ℚ)
  samplerate : ℕ
  deriving DecidableEq

/-- A decode failure from the `sf.read` collaborator; soundfile errors carry
the offending path in their message, modelled here as an explicit field. -/
structure DecodeError where
  path : String
  msg : String
  deriving DecidableEq

/-- One input file, as seen by `get_audio_info`: either its decoded audio or
the decode error `sf.read` would raise for it. -/
abbrev DecodeResult := Except DecodeError DecodedAudio

/-- Errors that can escape `get_audio_info`: a propagated decode error, the
`ValueError` that `np.max` raises on a zero-size array, or the
`RuntimeError("Decoding produced no audio to process")`. -/
inductive AggError where
  | decodeError (path msg : String)
  | valueErrorEmptyMax
  | emptyInput
  deriving DecidableEq

/-- `np.clip(x, -1, 1)`, i.e. `minimum(1, maximum(-1, x))`. -/
def clip (x : ℚ) : ℚ := min 1 (max (-1) x)

/-- `samples.ravel()`: row-major flattening of the decoded array. -/
def flatSamples (a : DecodedAudio) : List ℚ := a.frames.flatten

/-- `np.clip(samples.ravel(), -1, 1)`. -/
def clippedSamples (a : DecodedAudio) : List ℚ := (flatSamples a).map clip

/-- `len(samples) / samplerate` as evaluated in the loop, where `samples` is
the array returned by `sf.read` BEFORE `ravel()`: its `len` is the number of
frames (first dimension), not the flattened sample count. -/
def fileLen (a : DecodedAudio) : ℚ := (a.frames.length : ℚ) / (a.samplerate : ℚ)

/-- `len(samples)` after `ravel()` and clipping: the per-file contribution to
`total_samples`. -/
def fileCount (a : DecodedAudio) : ℕ := (clippedSamples a).length

/-- `np.max` of a list; numpy raises on an empty array, which callers guard,
so the `[]` case is junk. -/
def npMax : List ℚ → ℚ
  | [] => 0
  | x :: xs => xs.foldl max x

/-- `np.max(np.abs(samples))` over the clipped samples of one file. -/
def fileMaxAbs (a : DecodedAudio) : ℚ := npMax ((clippedSamples a).map (fun s => |s|))

/-- `np.sum(samples ** 2)` over the clipped samples of one file. -/
def fileSq (a : DecodedAudio) : ℚ := ((clippedSamples a).map (fun s => s ^ 2)).sum

/-- Bin index assigned by `np.histogram(samples, bins=np.linspace(-1, 1, 1001))`
to one sample: samples outside `[-1, 1]` are not counted; inside, bin `i`
covers `[edges i, edges (i+1))`, except the last bin which also contains the
right endpoint `1`.  For these equal-width rational edges this is
`min 999 ⌊(s + 1) * 500⌋`. -/
def binIndexOpt (s : ℚ) : Option (Fin 1000) :=
  if -1 ≤ s ∧ s ≤ 1 then
    some ⟨min 999 (⌊(s + 1) * 500⌋.toNat),
      Nat.lt_of_le_of_lt (Nat.min_le_left _ _) (by norm_num)⟩
  else none

/-- The per-batch histogram: `np.histogram(batch, bins=bin_edges)` counts for
bin `i`. -/
def histOf (l : List ℚ) (i : Fin 1000) : ℕ :=
  l.countP (fun s => decide (binIndexOpt s = some i))

/-- `np.linspace(-1, 1, 1001)`: `edges i = -1 + i * (1 - (-1)) / 1000`. -/
def bin_edges : Fin 1001 → ℚ := fun i => -1 + (i.val : ℚ) * 2 / 1000

/-- The lowest histogram bin, covering `[-1, -1 + 1/500)`. -/
def firstBin : Fin 1000 := ⟨0, by norm_num⟩

/-- The highest histogram bin, covering `[1 - 1/500, 1]`. -/
def lastBin : Fin 1000 := ⟨999, by norm_num⟩

/-- The `Histogram` namedtuple. -/
@[ext] structure Histogram where
  bins : Fin 1000 → ℕ
  edges : Fin 1001 → ℚ

/-- The `AudioInfo` namedtuple; `peak` and `rms` are decibel values that may
be `-inf` (`⊥`). -/
@[ext] structure AudioInfo where
  tracks : ℕ
  length : ℚ
  peak : WithBot ℝ
  rms : WithBot ℝ
  histogram : Histogram

/-- `db(value) = 20 * np.log10(value) if value > 0 else -np.inf`.  Total on
all of `ℝ`: it never raises on zero or negative input. -/
noncomputable def db (x : ℝ) : WithBot ℝ :=
  if 0 < x then ((20 * Real.logb 10 x : ℝ) : WithBot ℝ) else ⊥

/-- The local accumulator variables of `get_audio_info`. -/
@[ext] structure AggState where
  totalTracks : ℕ
  totalSamples : ℕ
  totalLength : ℚ
  maxPeak : ℚ
  squaredSum : ℚ
  hist : Fin 1000 → ℕ

/-- Initial accumulator values (`0, 0, 0.0, 0.0, 0.0, np.zeros(1000)`). -/
def initState : AggState :=
  { totalTracks := 0, totalSamples := 0, totalLength := 0
    maxPeak := 0, squaredSum := 0, hist := fun _ => 0 }

/-- One iteration of the `for file in files` loop body on successfully decoded
audio.  If the flattened clipped sample array is empty, `np.max` raises
`ValueError` (a zero-size reduction), aborting the whole aggregation; the
partially updated locals are then unobservable, so the step is all-or-nothing. -/
def step (st : AggState) (a : DecodedAudio) : Except AggError AggState :=
  if clippedSamples a = [] then .error .valueErrorEmptyMax
  else .ok
    { totalTracks := st.totalTracks + 1
      totalLength := st.totalLength + fileLen a
      totalSamples := st.totalSamples + fileCount a
      maxPeak := max st.maxPeak (fileMaxAbs a)
      squaredSum := st.squaredSum + fileSq a
      hist := fun i => st.hist i + histOf (clippedSamples a) i }

/-- The `for file in files` loop: `sf.read` failures propagate unchanged and
abort the loop at the failing file. -/
def runFiles : AggState → List DecodeResult → Except AggError AggState
  | st, [] => .ok st
  | _, Except.error e :: _ => .error (.decodeError e.path e.msg)
  | st, Except.ok a :: rest =>
    match step st a with
    | .error e2 => .error e2
    | .ok st2 => runFiles st2 rest

/-- `get_audio_info(files)`: run the loop, fail with
`RuntimeError("Decoding produced no audio to process")` when the total sample
count is zero, otherwise build the `AudioInfo` namedtuple. -/
noncomputable def get_audio_info (files : List DecodeResult) : Except AggError AudioInfo :=
  match runFiles initState files with
  | .error e => .error e
  | .ok st =>
    if st.totalSamples = 0 then .error .emptyInput
    else .ok
      { tracks := st.totalTracks
        length := st.totalLength
        peak := db (st.maxPeak : ℝ)
        rms := db (Real.sqrt ((st.squaredSum : ℝ) / (st.totalSamples : ℝ)) * Real.sqrt 2)
        histogram := { bins := st.hist, edges := bin_edges } }

/-- Python's `round`: round half to even on the exact rational value. -/
def pyRound (q : ℚ) : ℤ :=
  if q - ⌊q⌋ < 1 / 2 then ⌊q⌋
  else if 1 / 2 < q - ⌊q⌋ then ⌊q⌋ + 1
  else if ⌊q⌋ % 2 = 0 then ⌊q⌋ else ⌊q⌋ + 1

/-- Python's `f"{n:02}"`: decimal rendering left-padded with zeros to width 2. -/
def pad2 (n : ℤ) : String :=
  if 0 ≤ n ∧ n < 10 then "0" ++ toString n else toString n

/-- `fmt_length(seconds)`: round to nearest second, then
`divmod(t, 3600)` / `divmod(rem, 60)` (floor division, as in Python) and
zero-padded two-digit rendering of each field. -/
def fmt_length (seconds : ℚ) : String :=
  let t := pyRound seconds
  let hours := Int.ediv t 3600
  let rem := Int.emod t 3600
  let minutes := Int.ediv rem 60
  let secs := Int.emod rem 60
  pad2 hours ++ ":" ++ pad2 minutes ++ ":" ++ pad2 secs

/-! ### Basic facts about clipping and binning -/

lemma clip_mem (x : ℚ) : -1 ≤ clip x ∧ clip x ≤ 1 := by
  unfold clip
  exact ⟨le_min (by norm_num) (le_max_left _ _), min_le_left _ _⟩

lemma binIndexOpt_isSome {s : ℚ} (h : -1 ≤ s ∧ s ≤ 1) : ∃ i, binIndexOpt s = some i := by
  unfold binIndexOpt
  rw [if_pos h]
  exact ⟨_, rfl⟩

lemma histOf_cons (s : ℚ) (l : List ℚ) (i : Fin 1000) :
    histOf (s :: l) i = histOf l i + (if binIndexOpt s = some i then 1 else 0) := by
  simp [histOf, List.countP_cons]

lemma histOf_append (l₁ l₂ : List ℚ) (i : Fin 1000) :
    histOf (l₁ ++ l₂) i = histOf l₁ i + histOf l₂ i := by
  simp [histOf, List.countP_append]

/-- Conservation: every in-range sample falls in exactly one bin, so the bin
counts of a batch sum to the batch size. -/
lemma sum_histOf (l : List ℚ) (h : ∀ s ∈ l, -1 ≤ s ∧ s ≤ 1) :
    ∑ i : Fin 1000, histOf l i = l.length := by
  induction l with
  | nil => simp [histOf]
  | cons s t ih =>
    obtain ⟨j, hj⟩ := binIndexOpt_isSome (h s (List.mem_cons_self s t))
    have ht := ih fun x hx => h x (List.mem_cons_of_mem _ hx)
    have hone : (∑ i : Fin 1000, if binIndexOpt s = some i then 1 else 0) = 1 := by
      simp only [hj, Option.some.injEq]
      rw [Finset.sum_ite_eq]
      simp
    calc ∑ i : Fin 1000, histOf (s :: t) i
        = ∑ i : Fin 1000, (histOf t i + if binIndexOpt s = some i then 1 else 0) := by
          simp only [histOf_cons]
      _ = t.length + 1 := by rw [Finset.sum_add_distrib, ht, hone]
      _ = (s :: t).length := by simp

/-! ### Step and loop lemmas -/

lemma step_of_empty {a : DecodedAudio} (h : clippedSamples a = []) (st : AggState) :
    step st a = .error .valueErrorEmptyMax := by
  rw [step, if_pos h]

lemma step_of_ne {a : DecodedAudio} (h : clippedSamples a ≠ []) (st : AggState) :
    step st a = .ok
      { totalTracks := st.totalTracks + 1
        totalLength := st.totalLength + fileLen a
        totalSamples := st.totalSamples + fileCount a
        maxPeak := max st.maxPeak (fileMaxAbs a)
        squaredSum := st.squaredSum + fileSq a
        hist := fun i => st.hist i + histOf (clippedSamples a) i } := by
  rw [step, if_neg h]

lemma runFiles_cons_ok (st : AggState) (a : DecodedAudio) (rest : List DecodeResult) :
    runFiles st (Except.ok a :: rest) =
      match step st a with
      | .error e => .error e
      | .ok st2 => runFiles st2 rest := rfl

lemma runFiles_cons_of_error {st : AggState} {a : DecodedAudio} {e : AggError}
    (h : step st a = .error e) (rest : List DecodeResult) :
    runFiles st (Except.ok a :: rest) = .error e := by
  rw [runFiles_cons_ok, h]

lemma runFiles_cons_of_ok {st st2 : AggState} {a : DecodedAudio}
    (h : step st a = .ok st2) (rest : List DecodeResult) :
    runFiles st (Except.ok a :: rest) = runFiles st2 rest := by
  rw [runFiles_cons_ok, h]

lemma runFiles_append (st : AggState) (l₁ l₂ : List DecodeResult) {st' : AggState}
    (h : runFiles st l₁ = .ok st') :
    runFiles st (l₁ ++ l₂) = runFiles st' l₂ := by
  induction l₁ generalizing st with
  | nil =>
    simp only [runFiles] at h
    cases h
    rfl
  | cons x rest ih =>
    cases x with
    | error e => simp only [runFiles] at h; exact Except.noConfusion h
    | ok a =>
      cases hstep : step st a with
      | error e => rw [runFiles_cons_of_error hstep] at h; cases h
      | ok st2 =>
        rw [runFiles_cons_of_ok hstep] at h
        rw [List.cons_append, runFiles_cons_of_ok hstep]
        exact ih st2 h

lemma runFiles_ok_all_ok {st st' : AggState} {files : List DecodeResult}
    (h : runFiles st files = .ok st') : ∀ f ∈ files, ∃ a, f = Except.ok a := by
  induction files generalizing st with
  | nil => simp
  | cons x rest ih =>
    cases x with
    | error e => simp only [runFiles] at h; exact Except.noConfusion h
    | ok a =>
      intro f hf
      rcases List.mem_cons.mp hf with rfl | hf'
      · exact ⟨a, rfl⟩
      · cases hstep : step st a with
        | error e => rw [runFiles_cons_of_error hstep] at h; cases h
        | ok st2 =>
          rw [runFiles_cons_of_ok hstep] at h
          exact ih h f hf'

/-- Processing two adjacent successfully-decoded files commutes: every
accumulator update is element-wise addition or `max`, and the zero-size
`ValueError` does not depend on the accumulator. -/
lemma runFiles_swap (st : AggState) (a b : DecodedAudio) (l : List DecodeResult) :
    runFiles st (Except.ok a :: Except.ok b :: l) =
      runFiles st (Except.ok b :: Except.ok a :: l) := by
  by_cases ha : clippedSamples a = [] <;> by_cases hb : clippedSamples b = []
  · rw [runFiles_cons_of_error (step_of_empty ha st),
      runFiles_cons_of_error (step_of_empty hb st)]
  · rw [runFiles_cons_of_error (step_of_empty ha st),
      runFiles_cons_of_ok (step_of_ne hb st), runFiles_cons_of_error (step_of_empty ha _)]
  · rw [runFiles_cons_of_error (step_of_empty hb st),
      runFiles_cons_of_ok (step_of_ne ha st), runFiles_cons_of_error (step_of_empty hb _)]
  · rw [runFiles_cons_of_ok (step_of_ne ha st), runFiles_cons_of_ok (step_of_ne hb _),
      runFiles_cons_of_ok (step_of_ne hb st), runFiles_cons_of_ok (step_of_ne ha _)]
    congr 1
    ext i
    · rfl
    · exact Nat.add_right_comm _ _ _
    · exact add_right_comm _ _ _
    · rw [max_assoc, max_assoc, max_comm (fileMaxAbs a) (fileMaxAbs b)]
    · exact add_right_comm _ _ _
    · exact Nat.add_right_comm _ _ _

/-- The loop result is invariant under permuting a list of decodable files. -/
lemma runFiles_perm : ∀ {l l' : List DecodeResult}, l.Perm l' →
    (∀ f ∈ l, ∃ a, f = Except.ok a) → ∀ st, runFiles st l = runFiles st l' := by
  intro l l' hperm
  induction hperm with
  | nil => exact fun _ _ => rfl
  | @cons x l₁ l₂ _ ih =>
    intro hok st
    rcases hok x (List.mem_cons_self x l₁) with ⟨a, rfl⟩
    cases hstep : step st a with
    | error e => rw [runFiles_cons_of_error hstep, runFiles_cons_of_error hstep]
    | ok st2 =>
      rw [runFiles_cons_of_ok hstep, runFiles_cons_of_ok hstep]
      exact ih (fun f hf => hok f (List.mem_cons_of_mem _ hf)) st2
  | @swap x y l₁ =>
    intro hok st
    rcases hok y (List.mem_cons_self _ _) with ⟨b, rfl⟩
    rcases hok x (by simp) with ⟨a, rfl⟩
    exact runFiles_swap st b a l₁
  | @trans l₁ l₂ l₃ h₁ _ ih₁ ih₂ =>
    intro hok st
    rw [ih₁ hok st]
    exact ih₂ (fun f hf => hok f (h₁.mem_iff.mpr hf)) st

/-! ### Characterization of the loop on fully decodable input -/

/-- Explicit loop result when every file decodes and has at least one sample. -/
lemma runFiles_map_ok (audios : List DecodedAudio) (st : AggState)
    (h : ∀ a ∈ audios, clippedSamples a ≠ []) :
    runFiles st (audios.map Except.ok) = .ok
      { totalTracks := st.totalTracks + audios.length
        totalSamples := st.totalSamples + (audios.map fileCount).sum
        totalLength := st.totalLength + (audios.map fileLen).sum
        maxPeak := audios.foldl (fun m a => max m (fileMaxAbs a)) st.maxPeak
        squaredSum := st.squaredSum + (audios.map fileSq).sum
        hist := fun i => st.hist i + (audios.map (fun a => histOf (clippedSamples a) i)).sum } := by
  induction audios generalizing st with
  | nil =>
    simp only [List.map_nil, runFiles, List.length_nil, List.sum_nil, List.foldl_nil, add_zero]
  | cons a rest ih =>
    have ha := h a (List.mem_cons_self _ _)
    rw [List.map_cons, runFiles_cons_of_ok (step_of_ne ha st),
      ih _ (fun x hx => h x (List.mem_cons_of_mem _ hx))]
    congr 1
    ext i <;> simp [List.sum_cons, List.foldl_cons, add_assoc, add_comm, add_left_comm]

/-- If some decodable file has no samples, the loop raises the `np.max`
zero-size `ValueError`, whatever the accumulator state. -/
lemma runFiles_map_ok_error (audios : List DecodedAudio) (st : AggState)
    (h : ∃ a ∈ audios, clippedSamples a = []) :
    runFiles st (audios.map Except.ok) = .error .valueErrorEmptyMax := by
  induction audios generalizing st with
  | nil => simp at h
  | cons a rest ih =>
    by_cases ha : clippedSamples a = []
    · rw [List.map_cons, runFiles_cons_of_error (step_of_empty ha st)]
    · rcases h with ⟨b, hb, hbe⟩
      rcases List.mem_cons.mp hb with rfl | hb'
      · exact absurd hbe ha
      · rw [List.map_cons, runFiles_cons_of_ok (step_of_ne ha st)]
        exact ih _ ⟨b, hb', hbe⟩

/-- Loop result from the initial accumulator, with the zero initial values
simplified away. -/
lemma runFiles_init_ok (audios : List DecodedAudio)
    (h : ∀ a ∈ audios, clippedSamples a ≠ []) :
    runFiles initState (audios.map Except.ok) = .ok
      { totalTracks := audios.length
        totalSamples := (audios.map fileCount).sum
        totalLength := (audios.map fileLen).sum
        maxPeak := audios.foldl (fun m a => max m (fileMaxAbs a)) 0
        squaredSum := (audios.map fileSq).sum
        hist := fun i => (audios.map (fun a => histOf (clippedSamples a) i)).sum } := by
  rw [runFiles_map_ok audios initState h]
  congr 1
  ext i <;> simp [initState]

lemma get_audio_info_of_runFiles_error {files : List DecodeResult} {e : AggError}
    (h : runFiles initState files = .error e) : get_audio_info files = .error e := by
  unfold get_audio_info
  rw [h]

lemma get_audio_info_of_runFiles_ok {files : List DecodeResult} {st : AggState}
    (h : runFiles initState files = .ok st) :
    get_audio_info files =
      if st.totalSamples = 0 then .error .emptyInput
      else .ok
        { tracks := st.totalTracks
          length := st.totalLength
          peak := db (st.maxPeak : ℝ)
          rms := db (Real.sqrt ((st.squaredSum : ℝ) / (st.totalSamples : ℝ)) * Real.sqrt 2)
          histogram := { bins := st.hist, edges := bin_edges } } := by
  unfold get_audio_info
  rw [h]

/-- Inversion: what a successful aggregation of decodable files tells us. -/
lemma get_audio_info_map_ok_inv {audios : List DecodedAudio} {info : AudioInfo}
    (h : get_audio_info (audios.map Except.ok) = .ok info) :
    (∀ a ∈ audios, clippedSamples a ≠ []) ∧ audios ≠ [] ∧
    (audios.map fileCount).sum ≠ 0 ∧
    info =
      { tracks := audios.length
        length := (audios.map fileLen).sum
        peak := db ((audios.foldl (fun m a => max m (fileMaxAbs a)) 0 : ℚ) : ℝ)
        rms := db (Real.sqrt ((((audios.map fileSq).sum : ℚ) : ℝ) /
          (((audios.map fileCount).sum : ℕ) : ℝ)) * Real.sqrt 2)
        histogram :=
          { bins := fun i => (audios.map (fun a => histOf (clippedSamples a) i)).sum
            edges := bin_edges } } := by
  by_cases hemp : ∃ a ∈ audios, clippedSamples a = []
  · rw [get_audio_info_of_runFiles_error (runFiles_map_ok_error audios initState hemp)] at h
    exact Except.noConfusion h
  · push_neg at hemp
    have hchar := runFiles_init_ok audios hemp
    rw [get_audio_info_of_runFiles_ok hchar] at h
    by_cases hz : (audios.map fileCount).sum = 0
    · rw [if_pos hz] at h
      exact Except.noConfusion h
    · rw [if_neg hz] at h
      have hne : audios ≠ [] := by
        intro hnil
        subst hnil
        simp at hz
      exact ⟨hemp, hne, hz, (Except.ok.injEq _ _).mp h.symm⟩

/-! ### Facts about `db` -/

lemma db_of_pos {x : ℝ} (h : 0 < x) :
    db x = ((20 * Real.logb 10 x : ℝ) : WithBot ℝ) := by
  rw [db, if_pos h]

lemma db_of_nonpos {x : ℝ} (h : x ≤ 0) : db x = ⊥ := by
  rw [db, if_neg (not_lt.mpr h)]

lemma db_one : db 1 = 0 := by
  rw [db_of_pos one_pos]
  simp [Real.logb_one]

lemma db_lt_db {x y : ℝ} (hx : 0 < x) (hxy : x < y) : db x < db y := by
  rw [db_of_pos hx, db_of_pos (hx.trans hxy)]
  have hlog : Real.logb 10 x < Real.logb 10 y :=
    Real.logb_lt_logb (by norm_num) hx hxy
  have h20 : (20 * Real.logb 10 x : ℝ) < 20 * Real.logb 10 y := by linarith
  exact WithBot.coe_lt_coe.mpr h20

/-! ### Rounding is to a nearest integer -/

lemma pyRound_nearest (q : ℚ) : |q - (pyRound q : ℚ)| ≤ 1 / 2 := by
  have h1 : (⌊q⌋ : ℚ) ≤ q := Int.floor_le q
  have h2 : q < ⌊q⌋ + 1 := Int.lt_floor_add_one q
  unfold pyRound
  by_cases ha : q - ⌊q⌋ < 1 / 2
  · rw [if_pos ha, abs_of_nonneg (by linarith)]
    linarith
  · rw [if_neg ha]
    have ha' : 1 / 2 ≤ q - ⌊q⌋ := not_lt.mp ha
    by_cases hb : 1 / 2 < q - ⌊q⌋
    · rw [if_pos hb]
      push_cast
      rw [abs_of_nonpos (by linarith)]
      linarith
    · have heq : q - ⌊q⌋ = 1 / 2 := le_antisymm (not_lt.mp hb) ha'
      rw [if_neg hb]
      by_cases hc : ⌊q⌋ % 2 = 0
      · rw [if_pos hc, abs_of_nonneg (by linarith)]
        linarith
      · rw [if_neg hc]
        push_cast
        rw [abs_of_nonpos (by linarith)]
        linarith

/-! ### Sum of squared sines over a full period -/

lemma sum_cos_zero (N : ℕ) (hN : 3 ≤ N) :
    ∑ k ∈ Finset.range N, Real.cos (4 * Real.pi * k / N) = 0 := by
  have hN0 : (N : ℝ) ≠ 0 := Nat.cast_ne_zero.mpr (by omega)
  have hNC : (N : ℂ) ≠ 0 := Nat.cast_ne_zero.mpr (by omega)
  have hNZ : (3 : ℤ) ≤ (N : ℤ) := by exact_mod_cast hN
  set ζ : ℂ := Complex.exp (((4 * Real.pi / N : ℝ) : ℂ) * Complex.I) with hζdef
  have hζ1 : ζ ≠ 1 := by
    rw [hζdef, ne_eq, Complex.exp_eq_one_iff]
    rintro ⟨n, hn⟩
    have h2 : ((4 * Real.pi / N : ℝ) : ℂ) * Complex.I =
        ((n : ℂ) * (2 * (Real.pi : ℂ))) * Complex.I := by rw [hn]; ring
    have h3 : ((4 * Real.pi / N : ℝ) : ℂ) = (n : ℂ) * (2 * (Real.pi : ℂ)) :=
      mul_right_cancel₀ Complex.I_ne_zero h2
    have h4 : (4 * Real.pi / N : ℝ) = (n : ℝ) * (2 * Real.pi) := by exact_mod_cast h3
    rw [div_eq_iff hN0] at h4
    have h6 : Real.pi * 4 = Real.pi * ((n : ℝ) * 2 * N) := by ring_nf; ring_nf at h4; linarith
    have h7 : (4 : ℝ) = (n : ℝ) * 2 * N := mul_left_cancel₀ Real.pi_ne_zero h6
    have h8 : (4 : ℤ) = n * 2 * N := by exact_mod_cast h7
    rcases lt_trichotomy n 0 with hneg | rfl | hpos
    · have : n ≤ -1 := by omega
      nlinarith
    · simp at h8
    · have : 1 ≤ n := by omega
      nlinarith
  have hζN : ζ ^ N = 1 := by
    rw [hζdef, ← Complex.exp_nat_mul]
    have harg : (N : ℂ) * (((4 * Real.pi / N : ℝ) : ℂ) * Complex.I) =
        2 * (2 * (Real.pi : ℂ) * Complex.I) := by
      push_cast
      field_simp
      ring
    rw [harg, Complex.exp_eq_one_iff]
    exact ⟨2, by push_cast; ring⟩
  have hsum : ∑ k ∈ Finset.range N, ζ ^ k = 0 := by
    rw [geom_sum_eq hζ1, hζN]
    simp
  have hre : ∑ k ∈ Finset.range N, Real.cos (4 * Real.pi * k / N) =
      (∑ k ∈ Finset.range N, ζ ^ k).re := by
    rw [Complex.re_sum]
    refine Finset.sum_congr rfl fun k _ => ?_
    rw [hζdef, ← Complex.exp_nat_mul]
    have harg : (k : ℂ) * (((4 * Real.pi / N : ℝ) : ℂ) * Complex.I) =
        ((4 * Real.pi * k / N : ℝ) : ℂ) * Complex.I := by push_cast; ring
    rw [harg, Complex.exp_ofReal_mul_I_re]
  rw [hre, hsum, Complex.zero_re]

lemma sum_sin_sq (N : ℕ) (hN : 3 ≤ N) :
    ∑ k ∈ Finset.range N, Real.sin (2 * Real.pi * k / N) ^ 2 = N / 2 := by
  have h1 : ∀ k : ℕ, Real.sin (2 * Real.pi * k / N) ^ 2 =
      1 / 2 - Real.cos (4 * Real.pi * k / N) / 2 := by
    intro k
    have harg : (4 : ℝ) * Real.pi * k / N = 2 * (2 * Real.pi * k / N) := by ring
    rw [Real.sin_sq_eq_half_sub, harg]
  calc ∑ k ∈ Finset.range N, Real.sin (2 * Real.pi * k / N) ^ 2
      = ∑ k ∈ Finset.range N, (1 / 2 - Real.cos (4 * Real.pi * k / N) / 2) :=
        Finset.sum_congr rfl fun k _ => h1 k
    _ = N / 2 := by
        rw [Finset.sum_sub_distrib, Finset.sum_const, Finset.card_range, ← Finset.sum_div,
          sum_cos_zero N hN]
        simp
        ring

/-- The per-claim rms value of a uniformly sampled full period of a
unit-amplitude sine wave is exactly 0 dB. -/
lemma sine_rms_zero (N : ℕ) (hN : 3 ≤ N) :
    db (Real.sqrt ((∑ k ∈ Finset.range N, Real.sin (2 * Real.pi * k / N) ^ 2) / N) *
      Real.sqrt 2) = 0 := by
  have hN0 : (N : ℝ) ≠ 0 := Nat.cast_ne_zero.mpr (by omega)
  rw [sum_sin_sq N hN]
  have hdiv : ((N : ℝ) / 2) / N = 1 / 2 := by
    field_simp
    ring
  rw [hdiv, ← Real.sqrt_mul (by norm_num : (0:ℝ) ≤ 1 / 2),
    show (1 / 2 : ℝ) * 2 = 1 by norm_num, Real.sqrt_one]
  exact db_one

/-! ### Boundary-bin facts -/

lemma binIndexOpt_one : binIndexOpt 1 = some lastBin := by
  rw [binIndexOpt, lastBin]
  norm_num

lemma binIndexOpt_neg_one : binIndexOpt (-1) = some firstBin := by
  rw [binIndexOpt, firstBin]
  norm_num

lemma clip_one : clip 1 = 1 := by norm_num [clip]

lemma clip_neg_one : clip (-1) = -1 := by norm_num [clip]

lemma foldl_max_all_one : ∀ xs : List ℚ, (∀ s ∈ xs, s = (1 : ℚ)) → xs.foldl max 1 = 1 := by
  intro xs
  induction xs with
  | nil => exact fun _ => rfl
  | cons y ys ih =>
    intro h
    have hy : y = 1 := h y (by simp)
    subst hy
    simp only [List.foldl_cons, max_self]
    exact ih fun s hs => h s (by simp [hs])

lemma npMax_all_one {l : List ℚ} (h : ∀ s ∈ l, s = (1 : ℚ)) (hne : l ≠ []) : npMax l = 1 := by
  cases l with
  | nil => exact absurd rfl hne
  | cons x xs =>
    have hx : x = 1 := h x (by simp)
    subst hx
    exact foldl_max_all_one xs fun s hs => h s (by simp [hs])

/-- The clipped absolute values of a list of full-scale samples are all `1`. -/
lemma abs_clip_pm {a : DecodedAudio} (h : ∀ s ∈ flatSamples a, s = 1 ∨ s = -1) :
    ∀ t ∈ (clippedSamples a).map (fun s => |s|), t = (1 : ℚ) := by
  intro t ht
  rcases List.mem_map.mp ht with ⟨s, hs, rfl⟩
  rcases List.mem_map.mp hs with ⟨s0, hs0, rfl⟩
  rcases h s0 hs0 with rfl | rfl
  · rw [clip_one]
    norm_num
  · rw [clip_neg_one]
    norm_num

lemma fileMaxAbs_pm {a : DecodedAudio} (h : ∀ s ∈ flatSamples a, s = 1 ∨ s = -1)
    (hne : clippedSamples a ≠ []) : fileMaxAbs a = 1 := by
  rw [fileMaxAbs]
  exact npMax_all_one (abs_clip_pm h) (by simpa using hne)

lemma clippedSamples_pm {a : DecodedAudio} (h : ∀ s ∈ flatSamples a, s = 1 ∨ s = -1) :
    ∀ s ∈ clippedSamples a, s = 1 ∨ s = -1 := by
  intro s hs
  rcases List.mem_map.mp hs with ⟨s0, hs0, rfl⟩
  rcases h s0 hs0 with rfl | rfl
  · exact Or.inl clip_one
  · exact Or.inr clip_neg_one

lemma histOf_pm_ne {l : List ℚ} (h : ∀ s ∈ l, s = 1 ∨ s = -1) {i : Fin 1000}
    (h0 : i ≠ firstBin) (h999 : i ≠ lastBin) : histOf l i = 0 := by
  rw [histOf, List.countP_eq_zero]
  intro s hs
  rcases h s hs with rfl | rfl
  · simp only [binIndexOpt_one, decide_eq_true_eq, Option.some.injEq]
    exact fun hh => h999 hh.symm
  · simp only [binIndexOpt_neg_one, decide_eq_true_eq, Option.some.injEq]
    exact fun hh => h0 hh.symm

lemma histOf_pm_sum {l : List ℚ} (h : ∀ s ∈ l, s = 1 ∨ s = -1) :
    histOf l firstBin + histOf l lastBin = l.length := by
  induction l with
  | nil => rfl
  | cons s t ih =>
    have ht := ih fun x hx => h x (List.mem_cons_of_mem _ hx)
    have hfl : firstBin ≠ lastBin := by
      intro hh
      have h2 := congrArg Fin.val hh
      simp only [firstBin, lastBin] at h2
      norm_num at h2
    rcases h s (List.mem_cons_self _ _) with rfl | rfl
    · rw [histOf_cons, histOf_cons, binIndexOpt_one]
      rw [if_neg (by simpa using hfl.symm), if_pos rfl]
      simp only [List.length_cons]
      omega
    · rw [histOf_cons, histOf_cons, binIndexOpt_neg_one]
      rw [if_pos rfl, if_neg (by simpa using hfl)]
      simp only [List.length_cons]
      omega

/-- Aggregating one decodable file with at least one sample. -/
lemma get_audio_info_singleton (a : DecodedAudio) (h : clippedSamples a ≠ []) :
    get_audio_info [Except.ok a] = .ok
      { tracks := 1
        length := fileLen a
        peak := db ((max 0 (fileMaxAbs a) : ℚ) : ℝ)
        rms := db (Real.sqrt ((fileSq a : ℝ) / (fileCount a : ℝ)) * Real.sqrt 2)
        histogram := { bins := fun i => histOf (clippedSamples a) i, edges := bin_edges } } := by
  have hrun := runFiles_init_ok [a] (by intro x hx; rw [List.mem_singleton.mp hx]; exact h)
  simp only [List.map_cons, List.map_nil] at hrun
  rw [get_audio_info_of_runFiles_ok hrun]
  have hcount : fileCount a ≠ 0 := by
    simpa [fileCount, List.length_eq_zero] using h
  rw [if_neg (by simpa using hcount)]
  congr 1
  ext i <;> simp

/-- Counts of all clipped samples across files: the bin totals sum to the
total flattened sample count, since clipping puts every sample in range. -/
lemma sum_bins_eq_total (audios : List DecodedAudio) :
    (∑ i : Fin 1000, (audios.map (fun a => histOf (clippedSamples a) i)).sum)
      = (audios.map fileCount).sum := by
  induction audios with
  | nil => simp
  | cons a rest ih =>
    simp only [List.map_cons, List.sum_cons]
    rw [Finset.sum_add_distrib, ih,
      sum_histOf (clippedSamples a) (fun s hs => by
        rcases List.mem_map.mp hs with ⟨s0, _, rfl⟩
        exact clip_mem s0)]
    rfl

/-! ### Claim theorems -/

/-- C1: for a non-empty list of decodable input files, aggregation is
independent of processing order — any permutation of the file list yields the
same `AudioInfo` (histogram bins and all numeric fields) — and independent of
chunking: histogramming a concatenation of batches bin-wise equals summing the
per-batch histograms, and merging per-batch histograms in any order gives the
same bin counts, because the merge is element-wise natural-number addition. -/
theorem c1_order_and_chunking_independent :
    (∀ files files' : List DecodeResult, files ≠ [] →
      (∀ f ∈ files, ∃ a, f = Except.ok a) → files.Perm files' →
      get_audio_info files = get_audio_info files') ∧
    (∀ (batches : List (List ℚ)) (i : Fin 1000),
      histOf batches.flatten i = (batches.map (fun b => histOf b i)).sum) ∧
    (∀ batches batches' : List (List ℚ), batches.Perm batches' → ∀ i : Fin 1000,
      (batches.map (fun b => histOf b i)).sum =
        (batches'.map (fun b => histOf b i)).sum) := by
  refine ⟨?_, ?_, ?_⟩
  · intro files files' _ hok hperm
    unfold get_audio_info
    rw [runFiles_perm hperm hok initState]
  · intro batches i
    induction batches with
    | nil => simp [histOf]
    | cons b bs ih =>
      rw [List.flatten_cons, histOf_append, ih, List.map_cons, List.sum_cons]
  · intro bs bs' hperm i
    exact List.Perm.sum_eq (hperm.map _)

/-- C1 witness: a concrete two-file list and its transposition aggregate to
the same result. -/
theorem c1_order_and_chunking_independent_witness :
    get_audio_info [Except.ok ⟨[[(1 : ℚ)/2]], 1⟩, Except.ok ⟨[[-(1 : ℚ)/4]], 2⟩] =
      get_audio_info [Except.ok ⟨[[-(1 : ℚ)/4]], 2⟩, Except.ok ⟨[[(1 : ℚ)/2]], 1⟩] := by
  refine c1_order_and_chunking_independent.1 _ _ (by simp) ?_ (List.Perm.swap _ _ _)
  intro f hf
  rcases List.mem_cons.mp hf with rfl | hf'
  · exact ⟨_, rfl⟩
  · rcases List.mem_cons.mp hf' with rfl | hf''
    · exact ⟨_, rfl⟩
    · simp at hf''

/-- C2: the claim says a file that decodes to zero samples still produces the
specific "no audio to process" empty-input failure.  In the code, however,
`np.max(np.abs(samples))` runs on the empty array BEFORE the
`total_samples == 0` check and raises a zero-size-reduction `ValueError`, a
different error; only an empty file list reaches the `RuntimeError`. -/
theorem c2_zero_sample_file_raises_value_error :
    get_audio_info [] = .error .emptyInput ∧
    get_audio_info [Except.ok ⟨[], 44100⟩] = .error .valueErrorEmptyMax ∧
    AggError.valueErrorEmptyMax ≠ AggError.emptyInput :=
  ⟨rfl, rfl, fun h => AggError.noConfusion h⟩

/-- C4: `db x = 20 * log10 x` for positive `x`, negative infinity (`⊥`) for
`x ≤ 0` (total, never raising), `db 1 = 0`, `db 0 = -inf`, and `db` is
strictly increasing on positive inputs. -/
theorem c4_db_spec :
    (∀ x : ℝ, 0 < x → db x = ((20 * Real.logb 10 x : ℝ) : WithBot ℝ)) ∧
    (∀ x : ℝ, x ≤ 0 → db x = ⊥) ∧
    db 1 = 0 ∧ db 0 = ⊥ ∧
    (∀ x y : ℝ, 0 < x → x < y → db x < db y) :=
  ⟨fun _ h => db_of_pos h, fun _ h => db_of_nonpos h, db_one, db_of_nonpos le_rfl,
    fun _ _ hx hxy => db_lt_db hx hxy⟩

/-- C4 witness: the `db` facts at concrete inputs `1`, `0` and on `1 < 2`. -/
theorem c4_db_spec_witness :
    db 1 = 0 ∧ db 0 = ⊥ ∧ (0 : ℝ) < 1 ∧ (1 : ℝ) < 2 ∧ db 1 < db 2 :=
  ⟨c4_db_spec.2.2.1, c4_db_spec.2.2.2.1, by norm_num, by norm_num,
    c4_db_spec.2.2.2.2 1 2 (by norm_num) (by norm_num)⟩

/-- C9: `fmt_length` first rounds to a nearest whole second (`pyRound` is
within 1/2 of its argument), then renders `divmod`-decomposed hours, minutes
and seconds as zero-padded two-digit fields with hours unbounded; in
particular `fmt_length 3661 = "01:01:01"`, `fmt_length 59.6 = "00:01:00"`
(`59.6 = 298/5`), and `fmt_length 90000 = "25:00:00"`. -/
theorem c9_fmt_length_spec :
    (∀ s : ℚ, |s - (pyRound s : ℚ)| ≤ 1 / 2) ∧
    (∀ s : ℚ, fmt_length s =
      pad2 (Int.ediv (pyRound s) 3600) ++ ":" ++
      pad2 (Int.ediv (Int.emod (pyRound s) 3600) 60) ++ ":" ++
      pad2 (Int.emod (Int.emod (pyRound s) 3600) 60)) ∧
    fmt_length 3661 = "01:01:01" ∧
    fmt_length (298 / 5) = "00:01:00" ∧
    fmt_length 90000 = "25:00:00" := by
  refine ⟨pyRound_nearest, fun s => rfl, ?_, ?_, ?_⟩
  · norm_num [fmt_length, pyRound]
    decide
  · norm_num [fmt_length, pyRound]
    decide
  · norm_num [fmt_length, pyRound]
    decide

/-- C3 counterexample: a stereo file with 2 frames of 2 channels at rate 1
contributes `len(samples)/samplerate = 2` (frames over rate, taken BEFORE
`ravel()`) to `length`, not the flattened sample count over the rate, which
would be `4`. -/
theorem c3_length_counterexample :
    (get_audio_info [Except.ok ⟨[[1/2, 1/2], [1/2, 1/2]], 1⟩]).map AudioInfo.length =
      .ok 2 ∧
    ((flatSamples ⟨[[1/2, 1/2], [1/2, 1/2]], 1⟩).length : ℚ) /
      (((⟨[[1/2, 1/2], [1/2, 1/2]], 1⟩ : DecodedAudio).samplerate : ℕ) : ℚ) = 4 ∧
    (2 : ℚ) ≠ 4 := by
  refine ⟨?_, by norm_num [flatSamples], by norm_num⟩
  rw [get_audio_info_singleton ⟨[[1/2, 1/2], [1/2, 1/2]], 1⟩
    (by simp [clippedSamples, flatSamples])]
  simp only [Except.map]
  norm_num [fileLen]

/-- C3 (amended): each file's contribution to `length` is its frame count —
the length of the decoded array before flattening (samples per channel), not
the flattened interleaved sample count — divided by its sample rate; `length`
is the sum of these contributions and is nonnegative. -/
theorem c3_length_frames_over_rate :
    ∀ (audios : List DecodedAudio) (info : AudioInfo),
      get_audio_info (audios.map Except.ok) = .ok info →
      info.length = (audios.map fileLen).sum ∧
      (∀ a ∈ audios, fileLen a = (a.frames.length : ℚ) / (a.samplerate : ℚ)) ∧
      0 ≤ info.length := by
  intro audios info h
  obtain ⟨-, -, -, rfl⟩ := get_audio_info_map_ok_inv h
  refine ⟨rfl, fun a _ => rfl, ?_⟩
  apply List.sum_nonneg
  intro x hx
  rcases List.mem_map.mp hx with ⟨a, -, rfl⟩
  exact div_nonneg (Nat.cast_nonneg _) (Nat.cast_nonneg _)

/-- C3 witness: a concrete successful aggregation whose `length` is the sum of
frame-count/rate contributions. -/
theorem c3_length_frames_over_rate_witness : ∃ info,
    get_audio_info [Except.ok ⟨[[(1 : ℚ)/4, 1/4]], 2⟩] = .ok info ∧
    info.length = ([(⟨[[(1 : ℚ)/4, 1/4]], 2⟩ : DecodedAudio)].map fileLen).sum ∧
    0 ≤ info.length := by
  have h := get_audio_info_singleton ⟨[[(1 : ℚ)/4, 1/4]], 2⟩
    (by simp [clippedSamples, flatSamples])
  have hc := c3_length_frames_over_rate [⟨[[(1 : ℚ)/4, 1/4]], 2⟩] _ h
  exact ⟨_, h, hc.1, hc.2.2⟩

/-- C5: for every successful aggregation, `rms` is
`db(sqrt(sum_of_squares / total_sample_count) * sqrt 2)` where
`sum_of_squares` sums the squares of all clipped samples across files; and
under this `sqrt 2` normalization, `N ≥ 3` uniform samples of one full period
of a unit sine give exactly `0` dB (hence within any small tolerance). -/
theorem c5_rms_normalization :
    (∀ (audios : List DecodedAudio) (info : AudioInfo),
      get_audio_info (audios.map Except.ok) = .ok info →
      info.rms = db (Real.sqrt ((((audios.map fileSq).sum : ℚ) : ℝ) /
        (((audios.map fileCount).sum : ℕ) : ℝ)) * Real.sqrt 2)) ∧
    (∀ N : ℕ, 3 ≤ N →
      db (Real.sqrt ((∑ k ∈ Finset.range N, Real.sin (2 * Real.pi * k / N) ^ 2) / N) *
        Real.sqrt 2) = 0) := by
  constructor
  · intro audios info h
    obtain ⟨-, -, -, rfl⟩ := get_audio_info_map_ok_inv h
    rfl
  · exact sine_rms_zero

/-- C5 witness: the rms formula for a concrete file, and the sine property at
`N = 4`. -/
theorem c5_rms_normalization_witness : ∃ info,
    get_audio_info [Except.ok ⟨[[(1 : ℚ)/3]], 1⟩] = .ok info ∧
    info.rms = db (Real.sqrt (((([(⟨[[(1 : ℚ)/3]], 1⟩ : DecodedAudio)].map fileSq).sum : ℚ) : ℝ) /
      ((([(⟨[[(1 : ℚ)/3]], 1⟩ : DecodedAudio)].map fileCount).sum : ℕ) : ℝ)) * Real.sqrt 2) ∧
    db (Real.sqrt ((∑ k ∈ Finset.range 4, Real.sin (2 * Real.pi * k / (4 : ℕ)) ^ 2) / (4 : ℕ)) *
      Real.sqrt 2) = 0 := by
  have h := get_audio_info_singleton ⟨[[(1 : ℚ)/3]], 1⟩ (by simp [clippedSamples, flatSamples])
  exact ⟨_, h, c5_rms_normalization.1 [_] _ h, c5_rms_normalization.2 4 (by norm_num)⟩

/-- C6: a sample equal to `1` lands in the last bin (and `-1` in the first
bin) rather than being dropped; a single file of full-scale `±1` samples
yields `peak = 0` dB and a histogram whose entire mass sits in the two
boundary bins (first bin for `-1`, last bin for `1`). -/
theorem c6_full_scale_boundary_bins :
    binIndexOpt 1 = some lastBin ∧ binIndexOpt (-1) = some firstBin ∧
    ∀ (a : DecodedAudio) (info : AudioInfo),
      (∀ s ∈ flatSamples a, s = 1 ∨ s = -1) →
      get_audio_info [Except.ok a] = .ok info →
      info.peak = 0 ∧
      (∀ i : Fin 1000, i ≠ firstBin → i ≠ lastBin → info.histogram.bins i = 0) ∧
      info.histogram.bins firstBin + info.histogram.bins lastBin = fileCount a := by
  refine ⟨binIndexOpt_one, binIndexOpt_neg_one, ?_⟩
  intro a info hpm h
  obtain ⟨hne, -, -, rfl⟩ := @get_audio_info_map_ok_inv [a] info h
  have hanem : clippedSamples a ≠ [] := hne a (by simp)
  have hcl := clippedSamples_pm hpm
  refine ⟨?_, ?_, ?_⟩
  · show db ((List.foldl (fun m x => max m (fileMaxAbs x)) 0 [a] : ℚ) : ℝ) = 0
    rw [List.foldl_cons, List.foldl_nil, fileMaxAbs_pm hpm hanem,
      max_eq_right (by norm_num : (0 : ℚ) ≤ 1), Rat.cast_one]
    exact db_one
  · intro i h0 h999
    show (List.map (fun x => histOf (clippedSamples x) i) [a]).sum = 0
    simp [histOf_pm_ne hcl h0 h999]
  · show (List.map (fun x => histOf (clippedSamples x) firstBin) [a]).sum +
      (List.map (fun x => histOf (clippedSamples x) lastBin) [a]).sum = fileCount a
    simp only [List.map_cons, List.map_nil, List.sum_cons, List.sum_nil, add_zero]
    exact histOf_pm_sum hcl

/-- C6 witness: one file holding the samples `1` and `-1`. -/
theorem c6_full_scale_boundary_bins_witness : ∃ info,
    get_audio_info [Except.ok ⟨[[1], [-1]], 1⟩] = .ok info ∧
    info.peak = 0 ∧
    info.histogram.bins firstBin + info.histogram.bins lastBin =
      fileCount ⟨[[1], [-1]], 1⟩ := by
  have h := get_audio_info_singleton ⟨[[1], [-1]], 1⟩ (by simp [clippedSamples, flatSamples])
  have hc := c6_full_scale_boundary_bins.2.2 ⟨[[1], [-1]], 1⟩ _
    (by intro s hs; simpa [flatSamples] using hs) h
  exact ⟨_, h, hc.1, hc.2.2⟩

/-- C7: every successful aggregation returns a histogram with exactly 1000
bins and 1001 edges (by the types `Fin 1000 → ℕ` and `Fin 1001 → ℚ`), whose
edges are the fixed `linspace(-1, 1, 1001)` — equivalently
`edges i = -1 + i/500` — strictly increasing from `-1` to `1`, identical
across all invocations. -/
theorem c7_histogram_shape_invariant :
    ∀ (files : List DecodeResult) (info : AudioInfo),
      get_audio_info files = .ok info →
      info.histogram.edges = bin_edges ∧
      (∀ i : Fin 1001, info.histogram.edges i = -1 + (i.val : ℚ) / 500) ∧
      StrictMono info.histogram.edges ∧
      info.histogram.edges ⟨0, by norm_num⟩ = -1 ∧
      info.histogram.edges ⟨1000, by norm_num⟩ = 1 := by
  intro files info h
  cases hrun : runFiles initState files with
  | error e =>
    rw [get_audio_info_of_runFiles_error hrun] at h
    exact Except.noConfusion h
  | ok st =>
    rw [get_audio_info_of_runFiles_ok hrun] at h
    by_cases hz : st.totalSamples = 0
    · rw [if_pos hz] at h
      exact Except.noConfusion h
    · rw [if_neg hz] at h
      obtain rfl := (Except.ok.injEq _ _).mp h
      refine ⟨rfl, ?_, ?_, ?_, ?_⟩
      · intro i
        show bin_edges i = -1 + (i.val : ℚ) / 500
        rw [bin_edges]
        ring
      · intro i j hij
        show bin_edges i < bin_edges j
        have hnat : i.val < j.val := hij
        have hv : (i.val : ℚ) < (j.val : ℚ) := by exact_mod_cast hnat
        simp only [bin_edges]
        linarith
      · show bin_edges ⟨0, by norm_num⟩ = -1
        norm_num [bin_edges]
      · show bin_edges ⟨1000, by norm_num⟩ = 1
        norm_num [bin_edges]

/-- C7 witness: a concrete successful aggregation with the invariant edges. -/
theorem c7_histogram_shape_invariant_witness : ∃ info,
    get_audio_info [Except.ok ⟨[[0]], 8000⟩] = .ok info ∧
    info.histogram.edges = bin_edges ∧
    info.histogram.edges ⟨0, by norm_num⟩ = -1 ∧
    info.histogram.edges ⟨1000, by norm_num⟩ = 1 := by
  have h := get_audio_info_singleton ⟨[[0]], 8000⟩ (by simp [clippedSamples, flatSamples])
  have hc := c7_histogram_shape_invariant _ _ h
  exact ⟨_, h, hc.1, hc.2.2.2.1, hc.2.2.2.2⟩

/-- C8: if any file's decode fails, aggregation of the whole file-set returns
no `AudioInfo` (all-or-nothing, no partial histogram); and when the files
before the failing one process normally, the decode error — which carries the
offending file's path, as supplied by the decode collaborator — is propagated
unchanged, regardless of the files after it. -/
theorem c8_decode_failure_aborts :
    (∀ files : List DecodeResult, (∃ e, Except.error e ∈ files) →
      ∀ info : AudioInfo, get_audio_info files ≠ .ok info) ∧
    (∀ (pre : List DecodeResult) (e : DecodeError) (rest : List DecodeResult)
      (st : AggState), runFiles initState pre = .ok st →
      get_audio_info (pre ++ Except.error e :: rest) =
        .error (AggError.decodeError e.path e.msg)) := by
  constructor
  · rintro files ⟨e, he⟩ info h
    cases hrun : runFiles initState files with
    | error e2 =>
      rw [get_audio_info_of_runFiles_error hrun] at h
      exact Except.noConfusion h
    | ok st =>
      rcases runFiles_ok_all_ok hrun (Except.error e) he with ⟨a, ha⟩
      exact Except.noConfusion ha
  · intro pre e rest st hpre
    have hrun : runFiles initState (pre ++ Except.error e :: rest) =
        .error (AggError.decodeError e.path e.msg) := by
      rw [runFiles_append initState pre _ hpre]
      rfl
    exact get_audio_info_of_runFiles_error hrun

/-- C8 witness: one undecodable file aborts aggregation with its own decode
error, and no `AudioInfo` is produced. -/
theorem c8_decode_failure_aborts_witness :
    get_audio_info [Except.error ⟨"bad.flac", "corrupt"⟩] =
      .error (AggError.decodeError "bad.flac" "corrupt") ∧
    get_audio_info [Except.error ⟨"bad.flac", "corrupt"⟩] ≠
      .ok { tracks := 0, length := 0, peak := ⊥, rms := ⊥,
            histogram := { bins := fun _ => 0, edges := bin_edges } } :=
  ⟨c8_decode_failure_aborts.2 [] ⟨"bad.flac", "corrupt"⟩ [] initState rfl,
    c8_decode_failure_aborts.1 _ ⟨⟨"bad.flac", "corrupt"⟩, by simp⟩ _⟩

/-- C10: on every successful aggregation the 1000 bin counts sum to the total
flattened clipped sample count (no sample is dropped, since clipping confines
samples to `[-1, 1]`, fully covered by the bins); that same total is the rms
divisor; and at least one track was processed. -/
theorem c10_bin_counts_conservation :
    ∀ (audios : List DecodedAudio) (info : AudioInfo),
      get_audio_info (audios.map Except.ok) = .ok info →
      (∑ i : Fin 1000, info.histogram.bins i) = (audios.map fileCount).sum ∧
      info.rms = db (Real.sqrt ((((audios.map fileSq).sum : ℚ) : ℝ) /
        (((∑ i : Fin 1000, info.histogram.bins i : ℕ)) : ℝ)) * Real.sqrt 2) ∧
      1 ≤ info.tracks := by
  intro audios info h
  obtain ⟨-, hnil, -, rfl⟩ := get_audio_info_map_ok_inv h
  refine ⟨sum_bins_eq_total audios, ?_, ?_⟩
  · show db _ = db _
    rw [sum_bins_eq_total audios]
  · exact List.length_pos.mpr hnil

/-- C10 witness: a concrete two-sample file whose bin counts sum to its
sample count. -/
theorem c10_bin_counts_conservation_witness : ∃ info,
    get_audio_info [Except.ok ⟨[[(1 : ℚ)/2], [0]], 4⟩] = .ok info ∧
    (∑ i : Fin 1000, info.histogram.bins i) =
      ([(⟨[[(1 : ℚ)/2], [0]], 4⟩ : DecodedAudio)].map fileCount).sum ∧
    1 ≤ info.tracks := by
  have h := get_audio_info_singleton ⟨[[(1 : ℚ)/2], [0]], 4⟩
    (by simp [clippedSamples, flatSamples])
  have hc := c10_bin_counts_conservation [⟨[[(1 : ℚ)/2], [0]], 4⟩] _ h
  exact ⟨_, h, hc.1, hc.2.2⟩

/-- The index formula in `binIndexOpt` realizes numpy's edge-based semantics
over `bin_edges`: an in-range sample is assigned to bin `i` exactly when
`edges i ≤ s < edges (i+1)`, except that the last bin also contains the right
endpoint `1`; out-of-range samples are assigned no bin. -/
lemma binIndexOpt_eq_some_iff (s : ℚ) (i : Fin 1000) :
    binIndexOpt s = some i ↔
      (bin_edges ⟨i.val, Nat.lt_succ_of_lt i.isLt⟩ ≤ s ∧
        (s < bin_edges ⟨i.val + 1, Nat.succ_lt_succ i.isLt⟩ ∨ (i.val = 999 ∧ s ≤ 1))) := by
  have hi : i.val ≤ 999 := Nat.lt_succ_iff.mp i.isLt
  simp only [bin_edges]
  rw [binIndexOpt]
  by_cases h : -1 ≤ s ∧ s ≤ 1
  · rw [if_pos h]
    have hexp : (s + 1) * 500 = 500 * s + 500 := by ring
    have h0 : (0 : ℚ) ≤ (s + 1) * 500 := by rw [hexp]; linarith [h.1]
    have hfl0 : 0 ≤ ⌊(s + 1) * 500⌋ := Int.floor_nonneg.mpr h0
    have hflup : ⌊(s + 1) * 500⌋ ≤ 1000 := by
      have hle : (s + 1) * 500 ≤ (1000 : ℚ) := by rw [hexp]; linarith [h.2]
      calc ⌊(s + 1) * 500⌋ ≤ ⌊(1000 : ℚ)⌋ := Int.floor_le_floor hle
        _ = 1000 := by norm_num
    have htn : ((⌊(s + 1) * 500⌋.toNat : ℤ)) = ⌊(s + 1) * 500⌋ := Int.toNat_of_nonneg hfl0
    rw [Option.some.injEq, Fin.ext_iff]
    dsimp only
    constructor
    · intro hmin
      by_cases hn : ⌊(s + 1) * 500⌋.toNat ≤ 999
      · have hval : i.val = ⌊(s + 1) * 500⌋.toNat := by
          rw [← hmin, min_eq_right hn]
        have hfe : ⌊(s + 1) * 500⌋ = (i.val : ℤ) := by rw [hval]; exact htn.symm
        have hb := Int.floor_eq_iff.mp hfe
        rw [hexp] at hb
        push_cast at hb
        constructor
        · linarith [hb.1]
        · left
          push_cast
          linarith [hb.2]
      · push_neg at hn
        have hn1000 : ⌊(s + 1) * 500⌋.toNat = 1000 := by omega
        have hval : i.val = 999 := by
          rw [← hmin, hn1000]
          decide
        have hfe1000 : ⌊(s + 1) * 500⌋ = 1000 := by omega
        have hfloor_ge : ((1000 : ℤ) : ℚ) ≤ (s + 1) * 500 := by
          rw [← hfe1000]
          exact Int.floor_le _
        rw [hexp] at hfloor_ge
        push_cast at hfloor_ge
        refine ⟨?_, Or.inr ⟨hval, h.2⟩⟩
        rw [hval]
        push_cast
        linarith
    · rintro ⟨hle, hlt | ⟨h999, hs1⟩⟩
      · have hfe : ⌊(s + 1) * 500⌋ = (i.val : ℤ) := by
          rw [Int.floor_eq_iff]
          push_cast at hlt ⊢
          rw [hexp]
          constructor
          · linarith [hle]
          · linarith [hlt]
        have hveq : ⌊(s + 1) * 500⌋.toNat = i.val := by omega
        rw [hveq, min_eq_right hi]
      · have hge : (999 : ℚ) ≤ (s + 1) * 500 := by
          rw [h999] at hle
          push_cast at hle
          rw [hexp]
          linarith
        have hfl999 : (999 : ℤ) ≤ ⌊(s + 1) * 500⌋ := Int.le_floor.mpr (by exact_mod_cast hge)
        have hge999 : 999 ≤ ⌊(s + 1) * 500⌋.toNat := by omega
        rw [h999, min_eq_left hge999]
  · rw [if_neg h]
    constructor
    · intro hh
      exact Option.noConfusion hh
    · rintro ⟨hle, hcase⟩
      have hA : -1 ≤ s := by
        have hpos : (0 : ℚ) ≤ (i.val : ℚ) * 2 / 1000 := by positivity
        linarith [hle]
      have hB : s ≤ 1 := by
        rcases hcase with hlt | ⟨h999, hs1⟩
        · have h1 : i.val + 1 ≤ 1000 := i.isLt
          have hiv : ((i.val : ℚ) + 1) ≤ 1000 := by exact_mod_cast h1
          push_cast at hlt
          linarith [hlt, hiv]
        · exact hs1
      exact absurd ⟨hA, hB⟩ h
